import Mathlib

/-!
Verification of the core translation engine of the plover repository
(src/plover/steno_dictionary.py, src/plover/translation.py,
src/plover/orthography.py) against its natural-language specification.

The Python code is shallowly embedded: dictionaries become association
lists, Python classes become structures, loops become structural
recursion, and raised assertions become `Except` errors.
-/

set_option maxHeartbeats 1000000

namespace Plover

/-- A dictionary key: a tuple of RTFCRE stroke strings. -/
abbrev Key := List String

/-- Embedding of a `StenoDictionary` as seen by `StenoDictionaryCollection`:
its forward map (a Python dict, embedded as an association list with the
first binding of a key authoritative), its `enabled` flag, and its
`longest_key` attribute (maintained separately by the class). -/
structure StenoDict where
  entries : List (Key × String)
  enabled : Bool
  longestKey : Nat
deriving DecidableEq

/-- `d[key]` / `key in d` of the Python dict. -/
def dLookup (d : StenoDict) (k : Key) : Option String :=
  match d.entries.find? (fun e => e.1 == k) with
  | some e => some e.2
  | none => none

/-- `key in d`. -/
def containsD (d : StenoDict) (k : Key) : Bool :=
  (dLookup d k).isSome

/-- Modelled from the spec: `ReverseStenoDict` (plover.dictionary.base, not
part of the sources) keeps, for each translation, exactly the keys that map
to it; `StenoDictionary.reverse_lookup` returns that key set. -/
def dReverseLookup (d : StenoDict) (v : String) : Finset Key :=
  ((d.entries.filter (fun e => dLookup d e.1 == some v)).map (fun e => e.1)).toFinset

/-- `StenoDictionaryCollection.reverse_lookup`: iterate enabled dictionaries
from lowest to highest priority (the head of the list is the highest
priority, so recursion processes the tail first), subtract keys overridden
by the current dictionary, then add its own reverse hits. -/
def collReverseLookup (dicts : List StenoDict) (v : String) : Finset Key :=
  match dicts with
  | [] => ∅
  | d :: rest =>
      let keys := collReverseLookup rest v
      if d.enabled then
        (keys.filter (fun k => containsD d k = false)) ∪ dReverseLookup d v
      else keys

/-- `StenoDictionaryCollection.raw_lookup`: first match over enabled
dictionaries in priority order, no filters. -/
def rawLookup (dicts : List StenoDict) (k : Key) : Option String :=
  match dicts with
  | [] => none
  | d :: rest =>
      if d.enabled && containsD d k then dLookup d k else rawLookup rest k

theorem mem_dReverseLookup {d : StenoDict} {v : String} {k : Key} :
    k ∈ dReverseLookup d v ↔ dLookup d k = some v := by
  unfold dReverseLookup
  rw [List.mem_toFinset, List.mem_map]
  constructor
  · rintro ⟨e, he, rfl⟩
    rw [List.mem_filter] at he
    simpa using he.2
  · intro hk
    have hfind : ∃ e, d.entries.find? (fun e => e.1 == k) = some e ∧ e.2 = v := by
      unfold dLookup at hk
      cases hfound : d.entries.find? (fun e => e.1 == k) with
      | none => rw [hfound] at hk; exact absurd hk (by simp)
      | some e => rw [hfound] at hk; exact ⟨e, rfl, by simpa using hk⟩
    obtain ⟨e, hfe, hev⟩ := hfind
    have hmem : e ∈ d.entries := List.mem_of_find?_eq_some hfe
    have hk1 : e.1 = k := by
      have := List.find?_some hfe
      simpa using this
    refine ⟨e, ?_, hk1⟩
    rw [List.mem_filter]
    refine ⟨hmem, ?_⟩
    rw [hk1, hk]
    simp

theorem dLookup_some_contains {d : StenoDict} {k : Key} {v : String}
    (h : dLookup d k = some v) : containsD d k = true := by
  unfold containsD
  rw [h]
  rfl

/-- C1: over a `StenoDictionaryCollection`, `reverse_lookup(text)` returns
exactly the set of keys `k` with `raw_lookup(k) == text`. -/
theorem coll_reverse_lookup_exact (dicts : List StenoDict) (v : String) (k : Key) :
    k ∈ collReverseLookup dicts v ↔ rawLookup dicts k = some v := by
  induction dicts with
  | nil => simp [collReverseLookup, rawLookup]
  | cons d rest ih =>
    by_cases hen : d.enabled
    · by_cases hc : containsD d k = true
      · rw [collReverseLookup, rawLookup]
        simp only [hen, if_true, Bool.true_and, hc, if_true]
        rw [Finset.mem_union, Finset.mem_filter]
        constructor
        · rintro (⟨_, hfalse⟩ | hrev)
          · rw [hc] at hfalse; exact absurd hfalse (by simp)
          · exact mem_dReverseLookup.mp hrev
        · intro hl
          exact Or.inr (mem_dReverseLookup.mpr hl)
      · rw [collReverseLookup, rawLookup]
        have hc' : containsD d k = false := by
          cases hcd : containsD d k
          · rfl
          · exact absurd hcd hc
        simp only [hen, if_true, Bool.true_and, hc', Bool.false_eq_true, if_false]
        rw [Finset.mem_union, Finset.mem_filter]
        constructor
        · rintro (⟨hmem, _⟩ | hrev)
          · exact ih.mp hmem
          · exact absurd (dLookup_some_contains (mem_dReverseLookup.mp hrev)) hc
        · intro hl
          exact Or.inl ⟨ih.mpr hl, hc'⟩
    · rw [collReverseLookup, rawLookup]
      have hen' : d.enabled = false := by
        cases he : d.enabled
        · rfl
        · exact absurd he hen
      simp only [hen', Bool.false_and, Bool.false_eq_true, if_false]
      exact ih

/-! ### Longest-key aggregation (`StenoDictionaryCollection._longest_key_listener`) -/

/-- The aggregate computed by `_longest_key_listener`:
`max(d.longest_key for d in self.dicts)` when `self.dicts` is non-empty,
else 0.  NOTE: the source iterates over all dictionaries, enabled or not. -/
def collectionLongestKey (dicts : List StenoDict) : Nat :=
  if dicts.isEmpty then 0
  else (dicts.map StenoDict.longestKey).foldr Nat.max 0

/-- The mutable collection state relevant to longest-key tracking. -/
structure CollState where
  dicts : List StenoDict
  longestKey : Nat
deriving DecidableEq

/-- One invocation of `_longest_key_listener`: recompute the aggregate and,
when it changed, store it and fire the collection-level callbacks (the
returned Bool says whether the callbacks fired). -/
def longestKeyListenerStep (s : CollState) : CollState × Bool :=
  let nlk := collectionLongestKey s.dicts
  if nlk ≠ s.longestKey then (⟨s.dicts, nlk⟩, true) else (s, false)

/-- Written from the spec's words, for comparison with the source: the
collection's `longest_key` as "max of enabled children's `longest_key`
(or 0)". -/
def enabledLongestKeySpec (dicts : List StenoDict) : Nat :=
  ((dicts.filter (fun d => d.enabled)).map StenoDict.longestKey).foldr Nat.max 0

/-- A disabled dictionary holding the single entry `("A",) -> "x"`, hence
`longest_key` 1. -/
def c2dict : StenoDict := ⟨[(["A"], "x")], false, 1⟩

/-- C2 counterexample: for a collection whose only child is disabled with
`longest_key` 1, the code aggregates 1 while the claimed
"max over enabled children" is 0 — disabled children do contribute. -/
theorem collection_longest_key_counterexample :
    collectionLongestKey [c2dict] ≠ enabledLongestKeySpec [c2dict] := by
  decide

theorem foldr_max_le {l : List Nat} {x : Nat} (h : x ∈ l) : x ≤ l.foldr Nat.max 0 := by
  induction l with
  | nil => cases h
  | cons a t ih =>
    rcases List.mem_cons.mp h with rfl | ht
    · exact Nat.le_max_left _ _
    · exact le_trans (ih ht) (Nat.le_max_right _ _)

theorem foldr_max_mem {l : List Nat} (h : l ≠ []) :
    l.foldr Nat.max 0 ∈ l := by
  induction l with
  | nil => exact absurd rfl h
  | cons a t ih =>
    cases t with
    | nil =>
      show (max a 0 : Nat) ∈ [a]
      rw [max_eq_left (Nat.zero_le a)]
      exact List.mem_cons_self _ _
    | cons b u =>
      have hfold : (a :: b :: u).foldr Nat.max 0
          = max a ((b :: u).foldr Nat.max 0) := rfl
      rcases Nat.le_total ((b :: u).foldr Nat.max 0) a with hle | hle
      · rw [hfold, max_eq_left hle]
        exact List.mem_cons_self _ _
      · rw [hfold, max_eq_right hle]
        exact List.mem_cons_of_mem _ (ih (by simp))

theorem longestKeyListenerStep_fst (s : CollState) :
    (longestKeyListenerStep s).1.longestKey = collectionLongestKey s.dicts := by
  unfold longestKeyListenerStep
  by_cases h : collectionLongestKey s.dicts ≠ s.longestKey
  · simp [h]
  · push_neg at h
    simp [h]

/-- C2 amended: the collection's `longest_key` after `_longest_key_listener`
is the maximum of the `longest_key` values of ALL children, enabled or not
(0 if there are none), and the collection-level listeners are notified
exactly when this aggregate differs from the stored value. -/
theorem collection_longest_key_spec (s : CollState) :
    (∀ d ∈ s.dicts, d.longestKey ≤ (longestKeyListenerStep s).1.longestKey)
    ∧ (s.dicts ≠ [] → ∃ d ∈ s.dicts,
        (longestKeyListenerStep s).1.longestKey = d.longestKey)
    ∧ (s.dicts = [] → (longestKeyListenerStep s).1.longestKey = 0)
    ∧ ((longestKeyListenerStep s).2 = true ↔
        collectionLongestKey s.dicts ≠ s.longestKey) := by
  rw [longestKeyListenerStep_fst]
  refine ⟨?_, ?_, ?_, ?_⟩
  · intro d hd
    unfold collectionLongestKey
    have hnil : s.dicts ≠ [] := List.ne_nil_of_mem hd
    rw [if_neg (by simpa using hnil)]
    exact foldr_max_le (List.mem_map_of_mem _ hd)
  · intro hne
    unfold collectionLongestKey
    rw [if_neg (by simpa using hne)]
    have hmem : (s.dicts.map StenoDict.longestKey).foldr Nat.max 0
        ∈ s.dicts.map StenoDict.longestKey :=
      foldr_max_mem (by simpa using hne)
    obtain ⟨d, hd, hval⟩ := List.mem_map.mp hmem
    exact ⟨d, hd, hval.symm⟩
  · intro hnil
    unfold collectionLongestKey
    rw [if_pos (by simp [hnil])]
  · unfold longestKeyListenerStep
    by_cases h : collectionLongestKey s.dicts ≠ s.longestKey
    · rw [if_pos h]
      simp [h]
    · rw [if_neg h]
      push_neg at h
      simp [h]

/-- Witness for C2's amended theorem at a concrete collection. -/
theorem collection_longest_key_spec_witness :
    (∃ d ∈ [c2dict], (longestKeyListenerStep ⟨[c2dict], 0⟩).1.longestKey = d.longestKey)
    ∧ ((longestKeyListenerStep ⟨[c2dict], 0⟩).2 = true ↔
        collectionLongestKey [c2dict] ≠ 0) :=
  ⟨(collection_longest_key_spec ⟨[c2dict], 0⟩).2.1 (by decide),
   (collection_longest_key_spec ⟨[c2dict], 0⟩).2.2.2⟩

/-! ### Strokes, Translation records and the translator state
(src/plover/translation.py) -/

/-- The external `Stroke` collaborator: its RTFCRE text form, its key set,
and the `is_correction` flag. -/
structure Stroke where
  rtfcre : String
  stenoKeys : List String
  isCorrection : Bool
deriving DecidableEq

/-- `Translation`: the strokes it was built from, the mapped text
(`english`, `none` when unmapped), and the records it replaced.
`formatting` is always empty inside the core, so it is not carried.
`rtfcre` is derived (the constructor always sets it from the outline). -/
inductive Translation where
  | mk (strokes : List Stroke) (english : Option String) (replaced : List Translation)

/-- The stroke list of a translation (`len(t)` in the source counts these). -/
def Translation.strokes : Translation → List Stroke
  | .mk s _ _ => s

/-- The mapped text. -/
def Translation.english : Translation → Option String
  | .mk _ e _ => e

/-- The replaced records. -/
def Translation.replaced : Translation → List Translation
  | .mk _ _ r => r

/-- `t.rtfcre`: the tuple of RTFCRE forms of the strokes. -/
def Translation.rtfcre (t : Translation) : List String :=
  t.strokes.map Stroke.rtfcre

/-- `_State`: the history of undoable translations plus the single `tail`
record past the undo horizon. -/
structure TState where
  translations : List Translation
  tail : Option Translation

/-- `_State.prev(count)`.  The slice `self.translations[:-count]` follows
Python semantics: for `count = 0` it is `translations[:0] = []`, for
`count > 0` it drops the last `count` elements. -/
def statePrev (s : TState) (count : Option Nat) : Option (List Translation) :=
  let prev :=
    match count with
    | some c =>
        if c = 0 then [] else s.translations.take (s.translations.length - c)
    | none => s.translations
  if prev.isEmpty then
    match s.tail with
    | some t => some [t]
    | none => none
  else some prev

/-- A concrete single-stroke record, for counterexamples and witnesses. -/
def t0 : Translation := .mk [⟨"KAT", ["K", "A", "T"], false⟩] (some "cat") []

/-- Another concrete record. -/
def t1 : Translation := .mk [⟨"HROG", ["H", "R", "O", "G"], false⟩] (some "log") []

/-- C4 counterexample: on a state holding one translation and no tail,
`prev(0)` returns absent (the Python slice `[:-0]` is empty), not the whole
list as the claim states. -/
theorem state_prev_zero_counterexample :
    statePrev ⟨[t0], none⟩ (some 0) ≠ some [t0] := by
  intro h
  have h0 : statePrev ⟨[t0], none⟩ (some 0) = none := rfl
  rw [h0] at h
  exact Option.noConfusion h

theorem take_eq_reverse_drop_reverse (l : List Translation) (c : Nat) :
    (l.reverse.drop c).reverse = l.take (l.length - c) := by
  rw [← List.rdrop_eq_reverse_drop_reverse]
  rfl

/-- C4 amended: `prev(count)` for `count ≥ 1` returns the translations list
excluding its last `count` elements; `prev(0)` yields the empty view (the
Python slice `[:-0]`), so it falls through to the tail; with `count` absent
the full list is used; an empty view returns `[tail]` when the tail is
present and absent otherwise. -/
theorem state_prev_spec (s : TState) (c : Nat) :
    (1 ≤ c → c < s.translations.length →
      statePrev s (some c) = some ((s.translations.reverse.drop c).reverse))
    ∧ (s.translations ≠ [] → statePrev s none = some s.translations)
    ∧ ((c = 0 ∨ s.translations.length ≤ c) → statePrev s (some c) =
        match s.tail with
        | some t => some [t]
        | none => none)
    ∧ (s.translations = [] → statePrev s none =
        match s.tail with
        | some t => some [t]
        | none => none) := by
  refine ⟨?_, ?_, ?_, ?_⟩
  · intro h1 hlen
    have hc0 : ¬ c = 0 := by omega
    have hne : s.translations.take (s.translations.length - c) ≠ [] := by
      have hgt : s.translations.length - c ≠ 0 := by omega
      intro habs
      have := congrArg List.length habs
      rw [List.length_take] at this
      simp only [List.length_nil] at this
      omega
    unfold statePrev
    simp only [hc0, if_false]
    rw [if_neg (by simpa [List.isEmpty_iff] using hne)]
    rw [take_eq_reverse_drop_reverse]
  · intro hne
    unfold statePrev
    rw [if_neg (by simpa [List.isEmpty_iff] using hne)]
  · intro hcase
    have hview : (if c = 0 then ([] : List Translation)
        else s.translations.take (s.translations.length - c)) = [] := by
      rcases hcase with rfl | hle
      · simp
      · by_cases hc0 : c = 0
        · simp [hc0]
        · have hsub : s.translations.length - c = 0 := by omega
          simp [hc0, hsub]
    unfold statePrev
    simp only [hview, List.isEmpty_nil, if_true]
  · intro hnil
    unfold statePrev
    simp only [hnil, List.isEmpty_nil, if_true]

/-- Witness for C4's amended theorem: `prev(1)` on a two-record state drops
the newest record, and `prev(0)` on `[t0]` with no tail is absent. -/
theorem state_prev_spec_witness :
    statePrev ⟨[t0, t1], none⟩ (some 1)
      = some (([t0, t1].reverse.drop 1).reverse)
    ∧ statePrev ⟨[t0], none⟩ (some 0)
      = match (none : Option Translation) with
        | some t => some [t]
        | none => none :=
  ⟨(state_prev_spec ⟨[t0, t1], none⟩ 1).1 (by decide) (by decide),
   (state_prev_spec ⟨[t0], none⟩ 0).2.2.1 (Or.inl rfl)⟩

/-! ### `_State.restrict_size` -/

/-- The loop of `restrict_size`: walking the reversed history, count how
many trailing records are kept.  `acc` is the running stroke count. -/
def restrictCount (n : Nat) (acc : Nat) : List Translation → Nat
  | [] => 0
  | t :: rest =>
      let acc' := acc + t.strokes.length
      if n ≤ acc' then 1 else 1 + restrictCount n acc' rest

/-- `_State.restrict_size(n)`: keep the counted suffix; when records are
discarded, the newest discarded record becomes the tail. -/
def restrictSize (s : TState) (n : Nat) : TState :=
  let cnt := restrictCount n 0 s.translations.reverse
  let idx := s.translations.length - cnt
  { translations := s.translations.drop idx
    tail := if idx = 0 then s.tail else s.translations.get? (idx - 1) }

theorem restrictCount_pos (n acc : Nat) (t : Translation) (l : List Translation) :
    1 ≤ restrictCount n acc (t :: l) := by
  unfold restrictCount
  dsimp only
  split
  · exact Nat.le_refl 1
  · exact Nat.le_add_right 1 _

theorem restrictCount_le_length (n : Nat) :
    ∀ (l : List Translation) (acc : Nat), restrictCount n acc l ≤ l.length := by
  intro l
  induction l with
  | nil => intro acc; simp [restrictCount]
  | cons t rest ih =>
    intro acc
    unfold restrictCount
    dsimp only
    split
    · simp
    · simpa [List.length_cons, Nat.add_comm] using
        Nat.add_le_add_right (ih (acc + t.strokes.length)) 1

/-- C10: on a non-empty state, `restrict_size(n)` (any `n`, including 0)
keeps at least the newest record (the last element is unchanged), leaves
the tail untouched when nothing was discarded, and never resets the tail
to absent. -/
theorem restrict_size_spec (s : TState) (n : Nat) (hne : s.translations ≠ []) :
    (restrictSize s n).translations ≠ []
    ∧ (restrictSize s n).translations.getLast? = s.translations.getLast?
    ∧ ((restrictSize s n).translations.length = s.translations.length →
        (restrictSize s n).tail = s.tail)
    ∧ ((restrictSize s n).tail = none → s.tail = none) := by
  obtain ⟨t, l, hl⟩ : ∃ t l, s.translations.reverse = t :: l := by
    cases hrev : s.translations.reverse with
    | nil =>
      exfalso
      exact hne (by simpa using congrArg List.reverse hrev)
    | cons a b => exact ⟨a, b, rfl⟩
  have hcnt1 : 1 ≤ restrictCount n 0 s.translations.reverse := by
    rw [hl]; exact restrictCount_pos _ _ _ _
  have hcntle : restrictCount n 0 s.translations.reverse ≤ s.translations.length := by
    have := restrictCount_le_length n s.translations.reverse 0
    simpa using this
  set cnt := restrictCount n 0 s.translations.reverse with hcnt
  set idx := s.translations.length - cnt with hidx
  have hlenpos : 1 ≤ s.translations.length := by
    cases hts : s.translations with
    | nil => exact absurd hts hne
    | cons a b => simp
  have hidxlt : idx < s.translations.length := by omega
  have htrans : (restrictSize s n).translations = s.translations.drop idx := rfl
  have htail : (restrictSize s n).tail
      = (if idx = 0 then s.tail else s.translations.get? (idx - 1)) := rfl
  refine ⟨?_, ?_, ?_, ?_⟩
  · rw [htrans]
    intro habs
    have := congrArg List.length habs
    rw [List.length_drop] at this
    simp only [List.length_nil] at this
    omega
  · rw [htrans, List.getLast?_drop, if_neg (by omega)]
  · intro hlen
    rw [htrans, List.length_drop] at hlen
    have hidx0 : idx = 0 := by omega
    rw [htail, if_pos hidx0]
  · intro hnone
    rw [htail] at hnone
    by_cases hidx0 : idx = 0
    · rwa [if_pos hidx0] at hnone
    · exfalso
      rw [if_neg hidx0] at hnone
      have hklt : idx - 1 < s.translations.length := by omega
      rw [List.get?_eq_get hklt] at hnone
      exact Option.noConfusion hnone

/-- Witness for C10 at a concrete two-record state with `n = 0`. -/
theorem restrict_size_spec_witness :
    (restrictSize ⟨[t0, t1], none⟩ 0).translations ≠ []
    ∧ (restrictSize ⟨[t0, t1], none⟩ 0).translations.getLast?
        = [t0, t1].getLast? :=
  ⟨(restrict_size_spec ⟨[t0, t1], none⟩ 0 (by simp)).1,
   (restrict_size_spec ⟨[t0, t1], none⟩ 0 (by simp)).2.1⟩

/-! ### Mutation of a `StenoDictionary` (readonly handling) -/

/-- Full mutable state of a `StenoDictionary`: forward map, reverse index,
`longest_key`, `readonly` flag. -/
structure SDFull where
  entries : List (Key × String)
  rev : List (String × List Key)
  longestKey : Nat
  readonly : Bool
deriving DecidableEq

/-- Forward lookup in the entries list. -/
def fLookup (entries : List (Key × String)) (k : Key) : Option String :=
  match entries.find? (fun e => e.1 == k) with
  | some e => some e.2
  | none => none

/-- Modelled from the spec: `ReverseStenoDict.append_key(value, key)` adds
`key` to the key set of `value`. -/
def revAppendKey (rev : List (String × List Key)) (v : String) (k : Key) :
    List (String × List Key) :=
  if rev.any (fun e => e.1 == v) then
    rev.map (fun e => if e.1 == v then (e.1, e.2 ++ [k]) else e)
  else rev ++ [(v, [k])]

/-- Modelled from the spec: `ReverseStenoDict.remove_key(value, key)` removes
`key` from the key set of `value`. -/
def revRemoveKey (rev : List (String × List Key)) (v : String) (k : Key) :
    List (String × List Key) :=
  rev.map (fun e => if e.1 == v then (e.1, e.2.erase k) else e)

/-- The body of `StenoDictionary.__setitem__` after the readonly assert. -/
def sdSetCore (d : SDFull) (k : Key) (v : String) : SDFull :=
  let revLk :=
    match fLookup d.entries k with
    | some old => (revRemoveKey d.rev old k, d.longestKey)
    | none => (d.rev, max d.longestKey k.length)
  let entries1 :=
    if d.entries.any (fun e => e.1 == k) then
      d.entries.map (fun e => if e.1 == k then (e.1, v) else e)
    else d.entries ++ [(k, v)]
  { d with entries := entries1, rev := revAppendKey revLk.1 v k,
           longestKey := revLk.2 }

/-- `StenoDictionary.__setitem__`: `assert not self.readonly` first, then
update forward map, reverse index and `longest_key`. -/
def sdSetItem (d : SDFull) (k : Key) (v : String) : Except Unit SDFull :=
  if d.readonly then .error () else .ok (sdSetCore d k v)

/-- `StenoDictionary.__delitem__`: readonly assert, pop (a missing key is a
KeyError), fix the reverse index, recompute `longest_key` when the deleted
key was a longest one. -/
def sdDelItem (d : SDFull) (k : Key) : Except Unit SDFull :=
  if d.readonly then .error ()
  else
    match fLookup d.entries k with
    | none => .error ()
    | some v =>
        let entries1 := d.entries.filter (fun e => !(e.1 == k))
        let lk1 :=
          if k.length = d.longestKey then
            (entries1.map (fun e => e.1.length)).foldr Nat.max 0
          else d.longestKey
        .ok { d with entries := entries1, rev := revRemoveKey d.rev v k,
                     longestKey := lk1 }

/-- Python `dict(pairs)`: later bindings win, first-insertion order kept. -/
def dictOfPairs (pairs : List (Key × String)) : List (Key × String) :=
  pairs.foldl
    (fun acc kv =>
      if acc.any (fun e => e.1 == kv.1) then
        acc.map (fun e => if e.1 == kv.1 then (e.1, kv.2) else e)
      else acc ++ [kv]) []

/-- Modelled from the spec: `ReverseStenoDict.match_forward` rebuilds the
reverse index from the forward map. -/
def revMatchForward (entries : List (Key × String)) : List (String × List Key) :=
  entries.foldl (fun rev e => revAppendKey rev e.2 e.1) []

/-- `StenoDictionary.update`: readonly assert, then either the fast path for
an empty dictionary or item-by-item assignment. -/
def sdUpdate (d : SDFull) (pairs : List (Key × String)) : Except Unit SDFull :=
  if d.readonly then .error ()
  else if d.entries.isEmpty then
    let entries1 := dictOfPairs pairs
    .ok { d with entries := entries1, rev := revMatchForward entries1,
                 longestKey := (entries1.map (fun e => e.1.length)).foldr Nat.max 0 }
  else .ok ((dictOfPairs pairs).foldl (fun acc kv => sdSetCore acc kv.1 kv.2) d)

/-- `StenoDictionary.clear`: empties both maps and resets `longest_key`.
NOTE: unlike `__setitem__`/`__delitem__`/`update`, the source performs NO
readonly check here. -/
def sdClear (d : SDFull) : SDFull :=
  { d with entries := [], rev := [], longestKey := 0 }

/-- A readonly dictionary holding `("A",) -> "x"`. -/
def roDict : SDFull := ⟨[(["A"], "x")], [("x", [["A"]])], 1, true⟩

/-- C9: `set`, `delete` and `update` on a readonly dictionary fail at the
mutation site, but `clear()` — contrary to the claim and to the class
docstring ("If True, the dictionary may not be modified") — goes through
and empties the forward map, the reverse index and `longest_key`. -/
theorem readonly_clear_bug :
    sdSetItem roDict ["B"] "y" = .error ()
    ∧ sdDelItem roDict ["A"] = .error ()
    ∧ sdUpdate roDict [(["B"], "y")] = .error ()
    ∧ sdClear roDict = ⟨[], [], 0, true⟩ :=
  ⟨rfl, rfl, rfl, rfl⟩

/-! ### Orthography (src/plover/orthography.py) -/

/-- Text is embedded as a list of characters. -/
abbrev Str := List Char

/-- The system configuration consumed by the orthography module:
`ORTHOGRAPHY_WORDS` (word → rank), `ORTHOGRAPHY_RULES` (each compiled
regex + replacement becomes one function from the rule input to an
optional expansion) and `ORTHOGRAPHY_RULES_ALIASES`. -/
structure OrthoCfg where
  words : Str → Option Nat
  rules : List (Str → Option Str)
  aliases : Str → Option Str

/-- The literal rule input `word + " ^ " + suffix`. -/
def ruleInput (word sfx : Str) : Str := word ++ (' ' :: '^' :: ' ' :: []) ++ sfx

/-- `_add_candidates_from_rules`: append every matching rule's expansion,
in rule order. -/
def addCandidatesFromRules (cfg : OrthoCfg) (cands : List Str) (word sfx : Str) :
    List Str :=
  cands ++ cfg.rules.filterMap (fun r => r (ruleInput word sfx))

/-- `word in ORTHOGRAPHY_WORDS`. -/
def inDict (cfg : OrthoCfg) (w : Str) : Bool := (cfg.words w).isSome

/-- `ORTHOGRAPHY_WORDS[word]` (only ever used on words in the map). -/
def rankOf (cfg : OrthoCfg) (w : Str) : Nat := (cfg.words w).getD 0

/-- The candidate list built by `_add_suffix`: the simple join when it is in
the wordlist, then rule matches, then rule matches for the suffix alias. -/
def candidatesList (cfg : OrthoCfg) (word sfx : Str) : List Str :=
  let simple := word ++ sfx
  let c0 := if inDict cfg simple then [simple] else []
  let c1 := addCandidatesFromRules cfg c0 word sfx
  match cfg.aliases sfx with
  | some a => addCandidatesFromRules cfg c1 word a
  | none => c1

/-- Python's `min(..., key=rank)`: fold keeping the first element whose rank
is strictly smaller than the best so far. -/
def minByRank (cfg : OrthoCfg) (x : Str) (xs : List Str) : Str :=
  xs.foldl (fun best y => if rankOf cfg y < rankOf cfg best then y else best) x

/-- `_add_suffix(word, suffix)`. -/
def addSuffixCore (cfg : OrthoCfg) (word sfx : Str) : Str :=
  match candidatesList cfg word sfx with
  | [] => word ++ sfx
  | c :: cs =>
      match (c :: cs).filter (fun w => inDict cfg w) with
      | [] => c
      | dc :: dcs => minByRank cfg dc dcs

/-- `suffix.partition(' ')`: split at the first space; when there is no
space the separator and remainder are empty. -/
def partitionSp : Str → Str × Str × Str
  | [] => ([], [], [])
  | c :: rest =>
      if c = ' ' then ([], [' '], rest)
      else
        let p := partitionSp rest
        (c :: p.1, p.2.1, p.2.2)

/-- `add_suffix(word, suffix)`: join only the first space-delimited token and
re-append the separator and remainder verbatim. -/
def add_suffix (cfg : OrthoCfg) (word sfx : Str) : Str :=
  addSuffixCore cfg word (partitionSp sfx).1 ++ (partitionSp sfx).2.1
    ++ (partitionSp sfx).2.2

theorem partitionSp_decomp (s : Str) :
    (partitionSp s).1 ++ (partitionSp s).2.1 ++ (partitionSp s).2.2 = s
    ∧ ' ' ∉ (partitionSp s).1 := by
  induction s with
  | nil => exact ⟨rfl, by simp [partitionSp]⟩
  | cons c rest ih =>
    by_cases hc : c = ' '
    · subst hc
      unfold partitionSp
      simp
    · unfold partitionSp
      rw [if_neg hc]
      refine ⟨?_, ?_⟩
      · simpa using ih.1
      · intro hmem
        rcases List.mem_cons.mp (by simpa using hmem) with h | h
        · exact hc h.symm
        · exact ih.2 h

theorem minByRank_spec (cfg : OrthoCfg) :
    ∀ (xs : List Str) (x : Str),
    ∃ l1 l2, x :: xs = l1 ++ minByRank cfg x xs :: l2
      ∧ (∀ y ∈ l1, rankOf cfg (minByRank cfg x xs) < rankOf cfg y)
      ∧ (∀ y ∈ l2, rankOf cfg (minByRank cfg x xs) ≤ rankOf cfg y) := by
  intro xs
  induction xs with
  | nil =>
    intro x
    exact ⟨[], [], rfl, by simp, by simp⟩
  | cons y ys ih =>
    intro x
    have hstep : minByRank cfg x (y :: ys)
        = minByRank cfg (if rankOf cfg y < rankOf cfg x then y else x) ys := rfl
    by_cases h : rankOf cfg y < rankOf cfg x
    · rw [hstep, if_pos h]
      obtain ⟨l1, l2, hdec, hl1, hl2⟩ := ih y
      have hmy : rankOf cfg (minByRank cfg y ys) ≤ rankOf cfg y := by
        cases l1 with
        | nil =>
          have hym : y = minByRank cfg y ys := by
            simpa using congrArg (fun l => l.head?) hdec
          exact le_of_eq (congrArg (rankOf cfg) hym).symm
        | cons a l1' =>
          have ha : y = a := by
            simpa using congrArg (fun l => l.head?) hdec
          have := hl1 a (List.mem_cons_self a l1')
          rw [← ha] at this
          exact le_of_lt this
      refine ⟨x :: l1, l2, ?_, ?_, hl2⟩
      · rw [List.cons_append, ← hdec]
      · intro z hz
        rcases List.mem_cons.mp hz with rfl | hzl
        · exact lt_of_le_of_lt hmy h
        · exact hl1 z hzl
    · rw [hstep, if_neg h]
      obtain ⟨l1, l2, hdec, hl1, hl2⟩ := ih x
      have hxy : rankOf cfg x ≤ rankOf cfg y := le_of_not_lt h
      cases l1 with
      | nil =>
        have hm : x = minByRank cfg x ys := by
          simpa using congrArg (fun l => l.head?) hdec
        have hl2' : ys = l2 := by
          simpa using congrArg (fun l => l.tail) hdec
        refine ⟨[], y :: l2, ?_, by simp, ?_⟩
        · simp only [List.nil_append]
          rw [← hm, hl2']
        · intro z hz
          rcases List.mem_cons.mp hz with rfl | hzl
          · exact le_trans (le_of_eq (congrArg (rankOf cfg) hm.symm)) hxy
          · exact hl2 z hzl
      | cons a l1' =>
        have ha : x = a := by
          simpa using congrArg (fun l => l.head?) hdec
        have hys : ys = l1' ++ minByRank cfg x ys :: l2 := by
          simpa using congrArg (fun l => l.tail) hdec
        have hmx : rankOf cfg (minByRank cfg x ys) < rankOf cfg x := by
          have := hl1 a (List.mem_cons_self a l1')
          rw [← ha] at this
          exact this
        refine ⟨x :: y :: l1', l2, ?_, ?_, hl2⟩
        · rw [List.cons_append, List.cons_append, ← hys]
        · intro z hz
          rcases List.mem_cons.mp hz with rfl | hz'
          · exact hmx
          · rcases List.mem_cons.mp hz' with rfl | hz''
            · exact lt_of_lt_of_le hmx hxy
            · exact hl1 z (List.mem_cons_of_mem a hz'')

/-- C5: `add_suffix` joins only the first space-delimited token of the
suffix and re-appends separator and remainder verbatim; among the collected
candidates it returns the first wordlist entry of minimal rank, else the
first candidate, else the simple concatenation. -/
theorem add_suffix_spec (cfg : OrthoCfg) (word sfx : Str) :
    ((partitionSp sfx).1 ++ (partitionSp sfx).2.1 ++ (partitionSp sfx).2.2 = sfx)
    ∧ (' ' ∉ (partitionSp sfx).1)
    ∧ (candidatesList cfg word (partitionSp sfx).1 = [] →
        add_suffix cfg word sfx
          = (word ++ (partitionSp sfx).1) ++ (partitionSp sfx).2.1
              ++ (partitionSp sfx).2.2)
    ∧ (∀ c cs, candidatesList cfg word (partitionSp sfx).1 = c :: cs →
        (c :: cs).filter (fun w => inDict cfg w) = [] →
        add_suffix cfg word sfx
          = c ++ (partitionSp sfx).2.1 ++ (partitionSp sfx).2.2)
    ∧ (∀ c cs dc dcs, candidatesList cfg word (partitionSp sfx).1 = c :: cs →
        (c :: cs).filter (fun w => inDict cfg w) = dc :: dcs →
        ∃ l1 l2,
          add_suffix cfg word sfx
            = minByRank cfg dc dcs ++ (partitionSp sfx).2.1
                ++ (partitionSp sfx).2.2
          ∧ dc :: dcs = l1 ++ minByRank cfg dc dcs :: l2
          ∧ (∀ y ∈ l1, rankOf cfg (minByRank cfg dc dcs) < rankOf cfg y)
          ∧ (∀ y ∈ l2, rankOf cfg (minByRank cfg dc dcs) ≤ rankOf cfg y)) := by
  refine ⟨(partitionSp_decomp sfx).1, (partitionSp_decomp sfx).2, ?_, ?_, ?_⟩
  · intro h
    unfold add_suffix addSuffixCore
    rw [h]
  · intro c cs h hf
    unfold add_suffix addSuffixCore
    rw [h]
    dsimp only
    rw [hf]
  · intro c cs dc dcs h hf
    obtain ⟨l1, l2, hdec, hl1, hl2⟩ := minByRank_spec cfg dcs dc
    refine ⟨l1, l2, ?_, hdec, hl1, hl2⟩
    unfold add_suffix addSuffixCore
    rw [h]
    dsimp only
    rw [hf]

/-- A configuration with empty wordlist, no rules and no aliases. -/
def cfgW : OrthoCfg := ⟨fun _ => none, [], fun _ => none⟩

/-- Witness for C5 at a concrete input whose candidate list is empty. -/
theorem add_suffix_spec_witness :
    add_suffix cfgW ('a' :: 'b' :: []) ('c' :: [])
      = (('a' :: 'b' :: []) ++ (partitionSp ('c' :: [])).1)
          ++ (partitionSp ('c' :: [])).2.1 ++ (partitionSp ('c' :: [])).2.2 :=
  (add_suffix_spec cfgW ('a' :: 'b' :: []) ('c' :: [])).2.2.1 (by rfl)

/-- A configuration with a single rule that fires on the empty suffix for
the stem "run", expanding to "X". -/
def ceCfg : OrthoCfg :=
  ⟨fun _ => none,
   [fun s => if s = ('r' :: 'u' :: 'n' :: ' ' :: '^' :: ' ' :: []) then
       some ('X' :: []) else none],
   fun _ => none⟩

/-- C6 counterexample: with a rule matching `"run ^ "`, the joiner returns
its expansion "X" for the empty suffix, so `add_suffix(w, "") == w` does not
hold for every rule set. -/
theorem add_suffix_empty_counterexample :
    add_suffix ceCfg ('r' :: 'u' :: 'n' :: []) [] ≠ ('r' :: 'u' :: 'n' :: []) := by
  decide

/-- C6 amended: `add_suffix(w, "") == w` holds whenever no orthography rule
matches `w + " ^ "` (for the empty suffix itself or for its alias); a rule
matching the empty-suffix input can override the identity. -/
theorem add_suffix_empty_suffix (cfg : OrthoCfg) (word : Str)
    (hrules : cfg.rules.filterMap (fun r => r (ruleInput word [])) = [])
    (halias : ∀ a, cfg.aliases [] = some a →
        cfg.rules.filterMap (fun r => r (ruleInput word a)) = []) :
    add_suffix cfg word [] = word := by
  have hcand : candidatesList cfg word []
      = if inDict cfg (word ++ []) then [word ++ []] else [] := by
    unfold candidatesList addCandidatesFromRules
    cases ha : cfg.aliases [] with
    | none => simp [hrules]
    | some a => simp [hrules, halias a ha]
  show addSuffixCore cfg word [] ++ [] ++ [] = word
  rw [List.append_nil, List.append_nil]
  unfold addSuffixCore
  rw [hcand]
  by_cases hd : inDict cfg (word ++ []) = true
  · rw [if_pos hd]
    dsimp only
    rw [List.filter_cons_of_pos (by simpa using hd), List.filter_nil]
    show word ++ [] = word
    exact List.append_nil word
  · rw [if_neg hd]
    exact List.append_nil word

/-- Witness for C6's amended theorem. -/
theorem add_suffix_empty_witness :
    add_suffix cfgW ('a' :: 'b' :: []) [] = ('a' :: 'b' :: []) :=
  add_suffix_empty_suffix cfgW ('a' :: 'b' :: []) (by rfl)
    (fun a ha => Option.noConfusion ha)

/-! ### `escape_translation` / `unescape_translation`
(src/plover/translation.py, the `_ESCAPE_RX` / `_UNESCAPE_RX` rewriting).
The regex substitutions are embedded as left-to-right scans over character
lists, matching exactly what the patterns can match. -/

/-- Is the character one of the literal letters `n`, `r`, `t`? -/
def isNRT (c : Char) : Bool := c == 'n' || c == 'r' || c == 't'

/-- Is the character a literal newline, carriage return or tab? -/
def isCtl (c : Char) : Bool := c == '\n' || c == '\r' || c == '\t'

/-- The escape letter of a control character. -/
def escLetter (c : Char) : Char :=
  if c = '\n' then 'n' else if c = '\r' then 'r' else 't'

/-- The control character of an escape letter. -/
def ctlChar (d : Char) : Char :=
  if d = 'n' then '\n' else if d = 'r' then '\r' else '\t'

/-- `escape_translation`: scan for `\\[nrt]|[\n\r\t]`; a backslash-letter
pair becomes double-backslash-letter, a literal control character becomes
backslash-letter; everything else is copied. -/
def escape_translation : List Char → List Char
  | [] => []
  | [c] =>
      if c = '\\' then ['\\']
      else if isCtl c then ['\\', escLetter c]
      else [c]
  | c :: d :: rest' =>
      if c = '\\' then
        if isNRT d then '\\' :: '\\' :: d :: escape_translation rest'
        else '\\' :: escape_translation (d :: rest')
      else if isCtl c then '\\' :: escLetter c :: escape_translation (d :: rest')
      else c :: escape_translation (d :: rest')

/-- The scan of `_UNESCAPE_RX`: `((?<!\\)|\\)\\([nrt])`.  `prevBS` records
whether the character just before the scan position (in the original text)
is an unconsumed backslash, which is what the lookbehind inspects.  A
backslash-letter pair not preceded by a backslash becomes the control
character; double-backslash-letter becomes backslash-letter. -/
def unescAux : Bool → List Char → List Char
  | _, [] => []
  | _, [c] => if c = '\\' then ['\\'] else [c]
  | b, [c, d] =>
      if c = '\\' then
        if !b && isNRT d then [ctlChar d]
        else '\\' :: unescAux true [d]
      else c :: unescAux false [d]
  | b, c :: d :: e :: rest'' =>
      if c = '\\' then
        if !b && isNRT d then ctlChar d :: unescAux false (e :: rest'')
        else if d = '\\' then
          if isNRT e then '\\' :: e :: unescAux false rest''
          else '\\' :: unescAux true (d :: e :: rest'')
        else '\\' :: unescAux true (d :: e :: rest'')
      else c :: unescAux false (d :: e :: rest'')

/-- `unescape_translation`. -/
def unescape_translation (t : List Char) : List Char := unescAux false t

/-- C7 counterexample: the transformations are not mutual inverses on all
strings.  For `t = "\\" + "\n"` (backslash then literal newline),
`escape(t) = "\\\\n"`, which unescapes to `"\\n"`, not `t`; and for
`t = "\n"`, `unescape(t) = t` but `escape(t) = "\\n" ≠ t`. -/
theorem escape_unescape_counterexample :
    ¬ (unescape_translation (escape_translation ('\\' :: '\n' :: []))
          = ('\\' :: '\n' :: [])
       ∧ escape_translation (unescape_translation ('\n' :: []))
          = ('\n' :: [])) := by
  decide

/-- No literal control characters in the text. -/
def ctlFree (t : List Char) : Bool := t.all (fun c => !isCtl c)

theorem esc_bs_nrt (d : Char) (h : isNRT d = true) (rest : List Char) :
    escape_translation ('\\' :: d :: rest)
      = '\\' :: '\\' :: d :: escape_translation rest := by
  simp [escape_translation, h]

theorem esc_bs_other (d : Char) (h : isNRT d = false) (rest : List Char) :
    escape_translation ('\\' :: d :: rest)
      = '\\' :: escape_translation (d :: rest) := by
  simp [escape_translation, h]

theorem esc_ctl (c : Char) (hc : c ≠ '\\') (h : isCtl c = true) (rest : List Char) :
    escape_translation (c :: rest)
      = '\\' :: escLetter c :: escape_translation rest := by
  cases rest <;> simp [escape_translation, hc, h]

theorem esc_plain (c : Char) (hc : c ≠ '\\') (h : isCtl c = false) (rest : List Char) :
    escape_translation (c :: rest) = c :: escape_translation rest := by
  cases rest <;> simp [escape_translation, hc, h]

theorem u_plain (b : Bool) (c : Char) (hc : c ≠ '\\') (rest : List Char) :
    unescAux b (c :: rest) = c :: unescAux false rest := by
  cases rest with
  | nil => cases b <;> simp [unescAux, hc]
  | cons d rest2 => cases rest2 <;> cases b <;> simp [unescAux, hc]

theorem u_match2 (d : Char) (h : isNRT d = true) (rest' : List Char) :
    unescAux false ('\\' :: d :: rest') = ctlChar d :: unescAux false rest' := by
  cases rest' <;> simp [unescAux, h]

theorem isNRT_bs : isNRT '\\' = false := rfl

theorem u_match3 (b : Bool) (e : Char) (h : isNRT e = true) (rest'' : List Char) :
    unescAux b ('\\' :: '\\' :: e :: rest'')
      = '\\' :: e :: unescAux false rest'' := by
  cases b <;> simp [unescAux, h, isNRT_bs]

theorem u_nomatch_bsbs_other (b : Bool) (e : Char) (h : isNRT e = false)
    (rest'' : List Char) :
    unescAux b ('\\' :: '\\' :: e :: rest'')
      = '\\' :: unescAux true ('\\' :: e :: rest'') := by
  cases b <;> simp [unescAux, h, isNRT_bs]

theorem u_nomatch_bsbs_nil (b : Bool) :
    unescAux b ('\\' :: '\\' :: []) = '\\' :: unescAux true ('\\' :: []) := by
  cases b <;> simp [unescAux, isNRT_bs]

theorem u_nomatch_bs_other (b : Bool) (d : Char) (hd : d ≠ '\\')
    (hcond : (!b && isNRT d) = false) (rest' : List Char) :
    unescAux b ('\\' :: d :: rest')
      = '\\' :: unescAux true (d :: rest') := by
  cases b with
  | true => cases rest' <;> simp [unescAux, hd]
  | false =>
    have hnd : isNRT d = false := by simpa using hcond
    cases rest' <;> simp [unescAux, hd, hnd]

theorem nrt_cases (d : Char) (h : isNRT d = true) : d = 'n' ∨ d = 'r' ∨ d = 't' := by
  have h' : (d = 'n' ∨ d = 'r') ∨ d = 't' := by simpa [isNRT] using h
  tauto

theorem escLetter_ctlChar (d : Char) (h : isNRT d = true) :
    escLetter (ctlChar d) = d := by
  rcases nrt_cases d h with rfl | rfl | rfl <;> decide

theorem isCtl_ctlChar (d : Char) (h : isNRT d = true) : isCtl (ctlChar d) = true := by
  rcases nrt_cases d h with rfl | rfl | rfl <;> decide

theorem ctlChar_ne_bs (d : Char) (h : isNRT d = true) : ctlChar d ≠ '\\' := by
  rcases nrt_cases d h with rfl | rfl | rfl <;> decide

theorem ctlFree_cons {c : Char} {rest : List Char} (h : ctlFree (c :: rest) = true) :
    isCtl c = false ∧ ctlFree rest = true := by
  have h' : (!isCtl c && ctlFree rest) = true := h
  rcases (Bool.and_eq_true _ _).mp h' with ⟨h1, h2⟩
  refine ⟨?_, h2⟩
  cases hct : isCtl c
  · rfl
  · rw [hct] at h1
    exact absurd h1 (by decide)

/-- The lookbehind state only matters when the input starts with a
backslash-letter pair; otherwise the two scan states agree. -/
theorem unescAux_state_eq (l : List Char)
    (h : ∀ d xs, l = '\\' :: d :: xs → isNRT d = false) :
    unescAux true l = unescAux false l := by
  cases l with
  | nil => rfl
  | cons c rest =>
    cases rest with
    | nil => rfl
    | cons d xs =>
      by_cases hc : c = '\\'
      · subst hc
        have hd : isNRT d = false := h d xs rfl
        by_cases hdb : d = '\\'
        · subst hdb
          cases xs with
          | nil => rfl
          | cons e xs' =>
            by_cases he : isNRT e = true
            · rw [u_match3 true e he xs', u_match3 false e he xs']
            · have he' : isNRT e = false := by simpa using he
              rw [u_nomatch_bsbs_other true e he' xs',
                  u_nomatch_bsbs_other false e he' xs']
        · rw [u_nomatch_bs_other true d hdb (by simp) xs,
              u_nomatch_bs_other false d hdb (by simp [hd]) xs]
      · rw [u_plain true c hc, u_plain false c hc]

/-- For a control-free input whose head is neither a control character nor
an `nrt` letter, the escaped text starts with a non-`nrt` character. -/
theorem escape_cons_shape (c : Char) (rest : List Char)
    (hctl : isCtl c = false) (hn : isNRT c = false) :
    ∃ hd ys, escape_translation (c :: rest) = hd :: ys ∧ isNRT hd = false := by
  by_cases hc : c = '\\'
  · subst hc
    cases rest with
    | nil => exact ⟨'\\', [], rfl, by decide⟩
    | cons d rest' =>
      by_cases hnd : isNRT d = true
      · exact ⟨'\\', _, esc_bs_nrt d hnd rest', by decide⟩
      · exact ⟨'\\', _, esc_bs_other d (by simpa using hnd) rest', by decide⟩
  · exact ⟨c, _, esc_plain c hc hctl rest, hn⟩

theorem unesc_esc_len :
    ∀ (n : Nat) (t : List Char), t.length ≤ n → ctlFree t = true →
    unescAux false (escape_translation t) = t := by
  intro n
  induction n with
  | zero =>
    intro t ht _
    have ht0 : t = [] := List.eq_nil_of_length_eq_zero (Nat.le_zero.mp ht)
    subst ht0
    rfl
  | succ n ih =>
    intro t ht hcf
    cases t with
    | nil => rfl
    | cons c rest =>
      obtain ⟨hcc, hcfr⟩ := ctlFree_cons hcf
      by_cases hc : c = '\\'
      · subst hc
        cases rest with
        | nil => rfl
        | cons d rest' =>
          obtain ⟨hcd, hcfr'⟩ := ctlFree_cons hcfr
          by_cases hn : isNRT d = true
          · rw [esc_bs_nrt d hn rest', u_match3 false d hn _,
                ih rest' (by simp only [List.length_cons] at ht; omega) hcfr']
          · have hn' : isNRT d = false := by simpa using hn
            rw [esc_bs_other d hn' rest']
            by_cases hdb : d = '\\'
            · subst hdb
              cases rest' with
              | nil => rfl
              | cons e rest'' =>
                obtain ⟨hce, hcfr''⟩ := ctlFree_cons hcfr'
                by_cases hne : isNRT e = true
                · rw [esc_bs_nrt e hne rest'']
                  rw [u_nomatch_bsbs_other false '\\' (by decide)
                        (e :: escape_translation rest'')]
                  rw [u_match3 true e hne _,
                      ih rest'' (by simp only [List.length_cons] at ht; omega) hcfr'']
                · have hne' : isNRT e = false := by simpa using hne
                  rw [esc_bs_other e hne' rest'']
                  obtain ⟨hd', ys, hys, hh'⟩ := escape_cons_shape e rest'' hce hne'
                  rw [hys, u_nomatch_bsbs_other false hd' hh' ys, ← hys]
                  have hshape : ∀ d xs,
                      '\\' :: escape_translation (e :: rest'') = '\\' :: d :: xs →
                      isNRT d = false := by
                    intro d xs hEq
                    rw [hys] at hEq
                    have hde : hd' = d := by
                      have := (by simpa using hEq : hd' = d ∧ ys = xs)
                      exact this.1
                    rw [← hde]
                    exact hh'
                  rw [unescAux_state_eq _ hshape]
                  rw [← esc_bs_other e hne' rest'']
                  rw [ih ('\\' :: e :: rest'')
                        (by simp only [List.length_cons] at ht ⊢; omega) hcfr]
            · rw [esc_plain d hdb hcd rest']
              rw [u_nomatch_bs_other false d hdb (by simp [hn']) _]
              rw [u_plain true d hdb _]
              rw [ih rest' (by simp only [List.length_cons] at ht; omega) hcfr']
      · rw [esc_plain c hc hcc rest, u_plain false c hc _,
            ih rest (by simp only [List.length_cons] at ht; omega) hcfr]

theorem esc_unesc_len :
    ∀ (n : Nat) (t : List Char), t.length ≤ n → ctlFree t = true →
    (escape_translation (unescAux false t) = t)
    ∧ ((∀ d xs, t = d :: xs → d = '\\' ∨ isNRT d = false) →
       (∀ e xs, t = '\\' :: e :: xs → e = '\\' ∨ isNRT e = false) →
       escape_translation ('\\' :: unescAux true t) = '\\' :: t) := by
  intro n
  induction n with
  | zero =>
    intro t ht _
    have ht0 : t = [] := List.eq_nil_of_length_eq_zero (Nat.le_zero.mp ht)
    subst ht0
    exact ⟨rfl, fun _ _ => rfl⟩
  | succ n ih =>
    intro t ht hcf
    constructor
    · cases t with
      | nil => rfl
      | cons c rest =>
        obtain ⟨hcc, hcfr⟩ := ctlFree_cons hcf
        by_cases hc : c = '\\'
        · subst hc
          cases rest with
          | nil => rfl
          | cons d rest' =>
            obtain ⟨hcd, hcfr'⟩ := ctlFree_cons hcfr
            by_cases hn : isNRT d = true
            · rw [u_match2 d hn rest']
              rw [esc_ctl (ctlChar d) (ctlChar_ne_bs d hn) (isCtl_ctlChar d hn) _]
              rw [escLetter_ctlChar d hn]
              rw [(ih rest' (by simp only [List.length_cons] at ht; omega) hcfr').1]
            · have hn' : isNRT d = false := by simpa using hn
              by_cases hdb : d = '\\'
              · subst hdb
                cases rest' with
                | nil => rfl
                | cons e rest'' =>
                  obtain ⟨hce, hcfr''⟩ := ctlFree_cons hcfr'
                  by_cases hne : isNRT e = true
                  · rw [u_match3 false e hne rest'']
                    rw [esc_bs_nrt e hne _]
                    rw [(ih rest''
                          (by simp only [List.length_cons] at ht; omega) hcfr'').1]
                  · have hne' : isNRT e = false := by simpa using hne
                    rw [u_nomatch_bsbs_other false e hne' rest'']
                    exact (ih ('\\' :: e :: rest'')
                        (by simp only [List.length_cons] at ht ⊢; omega) hcfr).2
                      (by intro d' xs hEq; injection hEq with h1 _; exact Or.inl h1.symm)
                      (by intro e' xs hEq
                          injection hEq with _ h2
                          injection h2 with h3 _
                          exact Or.inr (h3 ▸ hne'))
              · rw [u_nomatch_bs_other false d hdb (by simp [hn']) rest']
                exact (ih (d :: rest')
                    (by simp only [List.length_cons] at ht ⊢; omega) hcfr).2
                  (by intro d' xs hEq; injection hEq with h1 _; exact Or.inr (h1 ▸ hn'))
                  (by intro e' xs hEq; injection hEq with h1 _; exact absurd h1 hdb)
        · rw [u_plain false c hc rest]
          rw [esc_plain c hc hcc _]
          rw [(ih rest (by simp only [List.length_cons] at ht; omega) hcfr).1]
    · intro hd1 hd2
      cases t with
      | nil => rfl
      | cons c rest =>
        obtain ⟨hcc, hcfr⟩ := ctlFree_cons hcf
        by_cases hc : c = '\\'
        · subst hc
          cases rest with
          | nil => rfl
          | cons e rest'' =>
            obtain ⟨hce, hcfr''⟩ := ctlFree_cons hcfr
            by_cases heb : e = '\\'
            · subst heb
              cases rest'' with
              | nil => rfl
              | cons f rest₃ =>
                obtain ⟨hcff, hcfr₃⟩ := ctlFree_cons hcfr''
                by_cases hnf : isNRT f = true
                · rw [u_match3 true f hnf rest₃]
                  rw [esc_bs_other '\\' (by decide) _]
                  rw [esc_bs_nrt f hnf _]
                  rw [(ih rest₃
                        (by simp only [List.length_cons] at ht; omega) hcfr₃).1]
                · have hnf' : isNRT f = false := by simpa using hnf
                  rw [u_nomatch_bsbs_other true f hnf' rest₃]
                  rw [esc_bs_other '\\' (by decide) _]
                  have hM := (ih ('\\' :: f :: rest₃)
                      (by simp only [List.length_cons] at ht ⊢; omega) hcfr'').2
                    (by intro d' xs hEq; injection hEq with h1 _; exact Or.inl h1.symm)
                    (by intro e' xs hEq
                        injection hEq with _ h2
                        injection h2 with h3 _
                        exact Or.inr (h3 ▸ hnf'))
                  rw [hM]
            · have hne' : isNRT e = false := by
                rcases hd2 e rest'' rfl with h | h
                · exact absurd h heb
                · exact h
              rw [u_nomatch_bs_other true e heb (by simp) rest'']
              rw [u_plain true e heb rest'']
              rw [esc_bs_other '\\' (by decide) _]
              rw [esc_bs_other e hne' _]
              rw [esc_plain e heb hce _]
              rw [(ih rest''
                    (by simp only [List.length_cons] at ht; omega) hcfr'').1]
        · have hnc : isNRT c = false := by
            rcases hd1 c rest rfl with h | h
            · exact absurd h hc
            · exact h
          rw [u_plain true c hc rest]
          rw [esc_bs_other c hnc _]
          rw [esc_plain c hc hcc _]
          rw [(ih rest (by simp only [List.length_cons] at ht; omega) hcfr).1]

/-- C7 amended: for every translation text containing no literal newline,
carriage return or tab character, `unescape ∘ escape` and
`escape ∘ unescape` are the identity; on texts with literal control
characters the transformations need not be inverses. -/
theorem escape_unescape_inverses (t : List Char) (h : ctlFree t = true) :
    unescape_translation (escape_translation t) = t
    ∧ escape_translation (unescape_translation t) = t :=
  ⟨unesc_esc_len t.length t (Nat.le_refl _) h,
   (esc_unesc_len t.length t (Nat.le_refl _) h).1⟩

/-- Witness for C7's amended theorem at `t = "\\nx"` (backslash, letter n,
letter x — no literal control characters). -/
theorem escape_unescape_inverses_witness :
    unescape_translation (escape_translation ('\\' :: 'n' :: 'x' :: []))
      = ('\\' :: 'n' :: 'x' :: [])
    ∧ escape_translation (unescape_translation ('\\' :: 'n' :: 'x' :: []))
      = ('\\' :: 'n' :: 'x' :: []) :=
  escape_unescape_inverses ('\\' :: 'n' :: 'x' :: []) (by decide)

/-! ### The Translator's greedy lookup (`Translator._find_translation`) -/

/-- A `StenoDictionaryCollection` as the Translator sees it: children,
filter predicates, and the stored `longest_key` attribute. -/
structure DColl where
  dicts : List StenoDict
  filters : List (Key → String → Bool)
  longestKey : Nat

/-- `StenoDictionaryCollection.lookup`: first match over enabled children in
priority order; a pair caught by any filter suppresses the lookup. -/
def lookupFiltered (filters : List (Key → String → Bool)) :
    List StenoDict → Key → Option String
  | [], _ => none
  | d :: rest, k =>
      if d.enabled && containsD d k then
        match dLookup d k with
        | some v => if filters.any (fun f => f k v) then none else some v
        | none => none
      else lookupFiltered filters rest k

/-- Collection lookup with this collection's filters. -/
def collLookup (c : DColl) (k : Key) : Option String :=
  lookupFiltered c.filters c.dicts k

/-- The stroke-counting loop at the top of `_find_translation`: walking the
reversed history with running stroke count `acc`, how many trailing records
stay within the `longest_key` limit. -/
def selCount (limit : Nat) (acc : Nat) : List Translation → Nat
  | [] => 0
  | t :: rest =>
      let acc' := acc + t.strokes.length
      if limit < acc' then 0 else 1 + selCount limit acc' rest

/-- `translation_count` (the count starts at 1 stroke for the new stroke). -/
def ftCount (c : DColl) (translations : List Translation) : Nat :=
  selCount c.longestKey 1 translations.reverse

/-- `translations[translation_index:]` — the trailing records under test. -/
def ftSelected (c : DColl) (translations : List Translation) : List Translation :=
  translations.drop (translations.length - ftCount c translations)

/-- `test_seq` at inner-loop iteration `i`: the rtfcre keys of the records
from `i` on, followed by the new stroke's rtfcre. -/
def seqAt (selected : List Translation) (stroke : Stroke) (i : Nat) : List String :=
  ((selected.drop i).map Translation.rtfcre).flatten ++ [stroke.rtfcre]

/-- `Translator._test_and_remove_each`; `mk` is the external
`Stroke(keys).rtfcre` constructor.  Python `list.remove` drops the first
occurrence, hence `List.erase`. -/
def testAndRemoveEach (mk : List String → String)
    (strokeKeys testKeys : List String) : List (String × String) :=
  testKeys.filterMap (fun key =>
    if key ∈ strokeKeys then some (key, mk (strokeKeys.erase key)) else none)

/-- `Translator._lookup_affixes`: substitute each affix-stripped stroke at
the first (prefix) or last (suffix) position; both the stripped sequence
and the affix key alone must be in the dictionary. -/
def lookupAffixes (c : DColl) (mk : List String → String) (seq : List String)
    (pre : Bool) : List (String × String) → Option String
  | [] => none
  | (key, removed) :: rest =>
      let seq' := if pre then seq.set 0 removed else seq.set (seq.length - 1) removed
      match collLookup c seq' with
      | none => lookupAffixes c mk seq pre rest
      | some main =>
          match collLookup c [mk [key]] with
          | none => lookupAffixes c mk seq pre rest
          | some affix =>
              some (if pre then affix ++ " " ++ main else main ++ " " ++ affix)

/-- The three lookup modes of `_find_translation`, in source order. -/
inductive FTMode where
  | normal
  | sfx
  | pfx
deriving DecidableEq

/-- The mapping attempted by `_find_translation` in the given mode at inner
iteration `i`.  In prefix mode the tested stroke is the first stroke of
`translations[i]` (or the new stroke when no records remain); a record with
no strokes yields no mapping (the source would fail there). -/
def mappingAt (c : DColl) (mk : List String → String)
    (selected : List Translation) (stroke : Stroke) (count : Nat)
    (lastMods : List (String × String)) (prefKeys : List String) :
    FTMode → Nat → Option String
  | .normal, i => collLookup c (seqAt selected stroke i)
  | .sfx, i => lookupAffixes c mk (seqAt selected stroke i) false lastMods
  | .pfx, i =>
      let testKeys : Option (List String) :=
        if i < count then
          match (selected.drop i).head? with
          | some t =>
              match t.strokes.head? with
              | some s0 => some s0.stenoKeys
              | none => none
          | none => none
        else some stroke.stenoKeys
      match testKeys with
      | none => none
      | some ks =>
          let mods := testAndRemoveEach mk ks prefKeys
          if mods.isEmpty then none
          else lookupAffixes c mk (seqAt selected stroke i) true mods

/-- `filter(None, (normal, suffixes, prefixes))` plus the
`if not last_stroke_mods: continue` shortcut of the suffix mode. -/
def ftModes (normal : Bool) (suffixKeys : List String)
    (lastMods : List (String × String)) (prefKeys : List String) : List FTMode :=
  (if normal then [FTMode.normal] else [])
  ++ (if suffixKeys.isEmpty then []
      else if lastMods.isEmpty then [] else [FTMode.sfx])
  ++ (if prefKeys.isEmpty then [] else [FTMode.pfx])

/-- The inner `for i in range(...)` loop: the first iteration whose mapping
succeeds, with its index. -/
def firstHit (f : Nat → Option String) : Nat → Nat → Option (Nat × String)
  | _, 0 => none
  | i, fuel + 1 =>
      match f i with
      | some m => some (i, m)
      | none => firstHit f (i + 1) fuel

/-- `Translator._find_translation`: try the modes in order, each at
decreasing key length; on the first hit build the replacement record, else
return the bare stroke with no mapping. -/
def findTranslation (c : DColl) (mk : List String → String)
    (translations : List Translation) (stroke : Stroke) (normal : Bool)
    (suffixKeys prefKeys : List String) : Translation :=
  match (ftModes normal suffixKeys
      (testAndRemoveEach mk stroke.stenoKeys suffixKeys) prefKeys).findSome?
      (fun mode =>
        firstHit
          (mappingAt c mk (ftSelected c translations) stroke
            (ftCount c translations)
            (testAndRemoveEach mk stroke.stenoKeys suffixKeys) prefKeys mode)
          0 (ftCount c translations + 1)) with
  | some im =>
      Translation.mk
        ((((ftSelected c translations).drop im.1).map Translation.strokes).flatten
          ++ [stroke])
        (some im.2)
        ((ftSelected c translations).drop im.1)
  | none => Translation.mk [stroke] none []

theorem firstHit_succ_some (f : Nat → Option String) (i fuel : Nat) (m : String)
    (h : f i = some m) : firstHit f i (fuel + 1) = some (i, m) := by
  unfold firstHit
  rw [h]

theorem firstHit_succ_none (f : Nat → Option String) (i fuel : Nat)
    (h : f i = none) : firstHit f i (fuel + 1) = firstHit f (i + 1) fuel := by
  conv_lhs => unfold firstHit
  rw [h]

theorem firstHit_none_forall (f : Nat → Option String) :
    ∀ (fuel i : Nat), firstHit f i fuel = none →
      ∀ j, i ≤ j → j < i + fuel → f j = none := by
  intro fuel
  induction fuel with
  | zero =>
    intro i _ j hij hlt
    exact absurd hlt (by omega)
  | succ fuel ih =>
    intro i h j hij hlt
    cases hf : f i with
    | some w =>
      rw [firstHit_succ_some f i fuel w hf] at h
      exact Option.noConfusion h
    | none =>
      rw [firstHit_succ_none f i fuel hf] at h
      by_cases hji : j = i
      · subst hji
        exact hf
      · exact ih (i + 1) h j (by omega) (by omega)

theorem firstHit_forall_none (f : Nat → Option String) :
    ∀ (fuel i : Nat), (∀ j, i ≤ j → j < i + fuel → f j = none) →
      firstHit f i fuel = none := by
  intro fuel
  induction fuel with
  | zero => intro i _; rfl
  | succ fuel ih =>
    intro i hall
    have hfi : f i = none := hall i le_rfl (by omega)
    rw [firstHit_succ_none f i fuel hfi]
    exact ih (i + 1) (fun j h1 h2 => hall j (by omega) (by omega))

theorem firstHit_some_spec (f : Nat → Option String) :
    ∀ (fuel i j : Nat) (m : String), firstHit f i fuel = some (j, m) →
      i ≤ j ∧ j < i + fuel ∧ f j = some m ∧ (∀ k, i ≤ k → k < j → f k = none) := by
  intro fuel
  induction fuel with
  | zero =>
    intro i j m h
    exact absurd h (by simp [firstHit])
  | succ fuel ih =>
    intro i j m h
    cases hf : f i with
    | some w =>
      rw [firstHit_succ_some f i fuel w hf] at h
      have hp : (i, w) = (j, m) := Option.some.inj h
      have hij : i = j := congrArg Prod.fst hp
      have hwm : w = m := congrArg Prod.snd hp
      subst hij
      subst hwm
      exact ⟨le_rfl, by omega, hf, fun k h1 h2 => absurd h2 (by omega)⟩
    | none =>
      rw [firstHit_succ_none f i fuel hf] at h
      obtain ⟨h1, h2, h3, h4⟩ := ih (i + 1) j m h
      refine ⟨by omega, by omega, h3, ?_⟩
      intro k hik hkj
      by_cases hk : k = i
      · subst hk
        exact hf
      · exact h4 k (by omega) hkj

theorem findSome?_some_decomp {α β : Type _} (g : α → Option β) :
    ∀ (l : List α) (v : β), l.findSome? g = some v →
      ∃ l1 x l2, l = l1 ++ x :: l2 ∧ g x = some v ∧ ∀ y ∈ l1, g y = none := by
  intro l
  induction l with
  | nil =>
    intro v h
    exact absurd h (by simp)
  | cons a rest ih =>
    intro v h
    rw [List.findSome?_cons] at h
    cases hg : g a with
    | some w =>
      rw [hg] at h
      refine ⟨[], a, rest, rfl, ?_, by simp⟩
      rw [hg]
      exact h
    | none =>
      rw [hg] at h
      obtain ⟨l1, x, l2, hdec, hx, hl1⟩ := ih v h
      refine ⟨a :: l1, x, l2, by rw [hdec]; rfl, hx, ?_⟩
      intro y hy
      rcases List.mem_cons.mp hy with rfl | hy'
      · exact hg
      · exact hl1 y hy'

theorem strokes_mk (s : List Stroke) (e : Option String) (r : List Translation) :
    (Translation.mk s e r).strokes = s := rfl

theorem english_mk (s : List Stroke) (e : Option String) (r : List Translation) :
    (Translation.mk s e r).english = e := rfl

theorem replaced_mk (s : List Stroke) (e : Option String) (r : List Translation) :
    (Translation.mk s e r).replaced = r := rfl

/-- C3: the greedy lookup tries the active modes in source order, each at
decreasing key length (dropping the leftmost record's keys — increasing `i`
— until only the new stroke remains at `i = count`); the first successful
mapping yields a record whose `replaced` is exactly the consumed trailing
records and whose strokes are their strokes plus the new stroke; when no
mode matches at any length the result is the bare stroke: absent text,
`rtfcre = (stroke.rtfcre,)`, empty `replaced`. -/
theorem find_translation_spec (c : DColl) (mk : List String → String)
    (translations : List Translation) (stroke : Stroke) (normal : Bool)
    (suffixKeys prefKeys : List String)
    (count : Nat) (selected : List Translation)
    (lastMods : List (String × String)) (modes : List FTMode) (r : Translation)
    (hcount : count = ftCount c translations)
    (hsel : selected = ftSelected c translations)
    (hmods : lastMods = testAndRemoveEach mk stroke.stenoKeys suffixKeys)
    (hmodes : modes = ftModes normal suffixKeys lastMods prefKeys)
    (hr : r = findTranslation c mk translations stroke normal suffixKeys prefKeys) :
    (∃ pre, translations = pre ++ r.replaced)
    ∧ r.strokes = (r.replaced.map Translation.strokes).flatten ++ [stroke]
    ∧ (∀ m, r.english = some m →
        ∃ mpre mode mpost i, modes = mpre ++ mode :: mpost
          ∧ i ≤ count
          ∧ (∀ mode' ∈ mpre, ∀ i' ≤ count,
              mappingAt c mk selected stroke count lastMods prefKeys mode' i' = none)
          ∧ (∀ i' < i,
              mappingAt c mk selected stroke count lastMods prefKeys mode i' = none)
          ∧ mappingAt c mk selected stroke count lastMods prefKeys mode i = some m
          ∧ r.replaced = selected.drop i)
    ∧ (r.english = none →
        r.strokes = [stroke] ∧ Translation.rtfcre r = [stroke.rtfcre]
          ∧ r.replaced = []
          ∧ ∀ mode ∈ modes, ∀ i ≤ count,
              mappingAt c mk selected stroke count lastMods prefKeys mode i = none) := by
  subst hcount
  subst hsel
  subst hmods
  subst hmodes
  subst hr
  cases hfs : (ftModes normal suffixKeys
      (testAndRemoveEach mk stroke.stenoKeys suffixKeys) prefKeys).findSome?
      (fun mode =>
        firstHit
          (mappingAt c mk (ftSelected c translations) stroke
            (ftCount c translations)
            (testAndRemoveEach mk stroke.stenoKeys suffixKeys) prefKeys mode)
          0 (ftCount c translations + 1)) with
  | some im =>
    have hreq : findTranslation c mk translations stroke normal suffixKeys prefKeys
        = Translation.mk
            ((((ftSelected c translations).drop im.1).map Translation.strokes).flatten
              ++ [stroke])
            (some im.2)
            ((ftSelected c translations).drop im.1) := by
      unfold findTranslation
      rw [hfs]
    obtain ⟨mpre, mode, mpost, hdec, hgx, hpre⟩ := findSome?_some_decomp _ _ _ hfs
    obtain ⟨_, hb2, hmap, hmin⟩ :=
      firstHit_some_spec _ (ftCount c translations + 1) 0 im.1 im.2 hgx
    refine ⟨?_, ?_, ?_, ?_⟩
    · refine ⟨translations.take
        (translations.length - ftCount c translations + im.1), ?_⟩
      rw [hreq, replaced_mk]
      unfold ftSelected
      rw [List.drop_drop]
      exact (List.take_append_drop _ _).symm
    · rw [hreq, strokes_mk, replaced_mk]
    · intro m hm
      rw [hreq, english_mk] at hm
      have hm2 : im.2 = m := Option.some.inj hm
      refine ⟨mpre, mode, mpost, im.1, hdec, by omega, ?_, ?_, ?_, ?_⟩
      · intro mode' hmode' i' hi'
        have hnone : firstHit
            (mappingAt c mk (ftSelected c translations) stroke
              (ftCount c translations)
              (testAndRemoveEach mk stroke.stenoKeys suffixKeys) prefKeys mode')
            0 (ftCount c translations + 1) = none := hpre mode' hmode'
        exact firstHit_none_forall _ _ _ hnone i' (Nat.zero_le _) (by omega)
      · intro i' hi'
        exact hmin i' (Nat.zero_le _) hi'
      · rw [← hm2]
        exact hmap
      · rw [hreq, replaced_mk]
    · intro hnone
      rw [hreq, english_mk] at hnone
      exact Option.noConfusion hnone
  | none =>
    have hreq : findTranslation c mk translations stroke normal suffixKeys prefKeys
        = Translation.mk [stroke] none [] := by
      unfold findTranslation
      rw [hfs]
    refine ⟨?_, ?_, ?_, ?_⟩
    · exact ⟨translations, by rw [hreq, replaced_mk, List.append_nil]⟩
    · rw [hreq, strokes_mk, replaced_mk]
      rfl
    · intro m hm
      rw [hreq, english_mk] at hm
      exact Option.noConfusion hm
    · intro _
      refine ⟨by rw [hreq, strokes_mk], by rw [hreq]; rfl,
        by rw [hreq, replaced_mk], ?_⟩
      intro mode hmode i hi
      have hnone : firstHit
          (mappingAt c mk (ftSelected c translations) stroke
            (ftCount c translations)
            (testAndRemoveEach mk stroke.stenoKeys suffixKeys) prefKeys mode)
          0 (ftCount c translations + 1) = none :=
        List.findSome?_eq_none_iff.mp hfs mode hmode
      exact firstHit_none_forall _ _ _ hnone i (Nat.zero_le _) (by omega)

/-- A one-entry enabled dictionary `("KAT",) -> "cat"`. -/
def katDict : StenoDict := ⟨[(["KAT"], "cat")], true, 1⟩

/-- A collection holding only `katDict`, no filters, `longest_key` 1. -/
def katColl : DColl := ⟨[katDict], [], 1⟩

/-- A trivial stand-in for the external `Stroke(keys).rtfcre` constructor. -/
def mkNull : List String → String := fun _ => ""

/-- The stroke `KAT`. -/
def sKAT : Stroke := ⟨"KAT", ["K", "A", "T"], false⟩

/-- Witness for C3 at a concrete hit: on an empty history, stroke `KAT`
matches in normal mode at the full (single-stroke) length. -/
theorem find_translation_spec_witness :
    ∃ mpre mode mpost i,
      ftModes true [] (testAndRemoveEach mkNull sKAT.stenoKeys []) []
        = mpre ++ mode :: mpost
      ∧ i ≤ ftCount katColl []
      ∧ (∀ mode' ∈ mpre, ∀ i' ≤ ftCount katColl [],
          mappingAt katColl mkNull (ftSelected katColl []) sKAT
            (ftCount katColl [])
            (testAndRemoveEach mkNull sKAT.stenoKeys []) [] mode' i' = none)
      ∧ (∀ i' < i,
          mappingAt katColl mkNull (ftSelected katColl []) sKAT
            (ftCount katColl [])
            (testAndRemoveEach mkNull sKAT.stenoKeys []) [] mode i' = none)
      ∧ mappingAt katColl mkNull (ftSelected katColl []) sKAT
          (ftCount katColl [])
          (testAndRemoveEach mkNull sKAT.stenoKeys []) [] mode i = some "cat"
      ∧ (findTranslation katColl mkNull [] sKAT true [] []).replaced
          = (ftSelected katColl []).drop i :=
  (find_translation_spec katColl mkNull [] sKAT true [] []
      (ftCount katColl []) (ftSelected katColl [])
      (testAndRemoveEach mkNull sKAT.stenoKeys [])
      (ftModes true [] (testAndRemoveEach mkNull sKAT.stenoKeys []) [])
      (findTranslation katColl mkNull [] sKAT true [] [])
      rfl rfl rfl rfl rfl).2.2.1 "cat" (by rfl)

/-! ### The Translator pipeline (`translate_stroke` / `flush`) -/

/-- The mutable state of a `Translator`. -/
structure TranslatorS where
  dict : DColl
  undoLength : Nat
  state : TState
  toUndo : List Translation
  toDo : Nat

/-- The macro descriptor built by `_mapping_to_macro` (source name): command
name, triggering stroke, command line. -/
structure CmdT where
  name : String
  stroke : Stroke
  cmdline : String

/-- `_mapping_to_macro`: an unmapped correction stroke dispatches `undo`;
the four legacy literal mappings alias retrospective commands; a mapping
`=name:cmdline` dispatches `name`; an empty name yields no macro. -/
def mappingToCmd (mapping : Option String) (stroke : Stroke) : Option CmdT :=
  match mapping with
  | none => if stroke.isCorrection then some ⟨"undo", stroke, ""⟩ else none
  | some m =>
      if m = "\x7b*\x7d" then some ⟨"retrospective_toggle_asterisk", stroke, ""⟩
      else if m = "\x7b*!\x7d" then some ⟨"retrospective_delete_space", stroke, ""⟩
      else if m = "\x7b*?\x7d" then some ⟨"retrospective_insert_space", stroke, ""⟩
      else if m = "\x7b*+\x7d" then some ⟨"repeat_last_stroke", stroke, ""⟩
      else if m.startsWith "=" ∧ 1 < m.length then
        match (m.drop 1).splitOn ":" with
        | [] => none
        | n :: rest =>
            if n = "" then none
            else some ⟨n, stroke,
              if rest.isEmpty then "" else String.intercalate ":" rest⟩
      else none

/-- One pop of `Translator._undo`: remove the newest record; it either
cancels a pending `do` or is queued for retraction. -/
def trUndoOne (tr : TranslatorS) (t : Translation) : TranslatorS :=
  let ts := tr.state.translations.dropLast
  if tr.toDo ≠ 0 then
    { tr with state := { tr.state with translations := ts }, toDo := tr.toDo - 1 }
  else
    { tr with state := { tr.state with translations := ts },
              toUndo := t :: tr.toUndo }

/-- `Translator._undo(*translations)`: pop in reverse order. -/
def trUndo (tr : TranslatorS) (ts : List Translation) : TranslatorS :=
  ts.reverse.foldl trUndoOne tr

/-- `Translator._do(*translations)`. -/
def trDo (tr : TranslatorS) (ts : List Translation) : TranslatorS :=
  { tr with
      state := { tr.state with translations := tr.state.translations ++ ts },
      toDo := tr.toDo + ts.length }

/-- `Translator._resize_translations`. -/
def trResize (tr : TranslatorS) : TranslatorS :=
  { tr with state := restrictSize tr.state (max tr.dict.longestKey tr.undoLength) }

/-- `Translator.flush`: compute the context and the undo/do lists, emit one
notification to every listener when either list is non-empty (modelled as
the returned event list — `_output` hands each event to every listener
once), then resize.  `translations[-to_do:]` takes the last `to_do`
records. -/
def trFlush (tr : TranslatorS) (extra : Option (List Translation)) :
    TranslatorS
    × List (List Translation × List Translation × Option (List Translation)) :=
  let prevDo :=
    if tr.toDo ≠ 0 then
      (statePrev tr.state (some tr.toDo),
       tr.state.translations.drop (tr.state.translations.length - tr.toDo))
    else (statePrev tr.state none, ([] : List Translation))
  let doL := prevDo.2 ++ (match extra with | some ex => ex | none => [])
  let events :=
    if tr.toUndo.isEmpty && doL.isEmpty then
      ([] : List (List Translation × List Translation
        × Option (List Translation)))
    else [(tr.toUndo, doL, prevDo.1)]
  (trResize { tr with toUndo := [], toDo := 0 }, events)

/-- Modelled from the spec: the built-in `undo` macro pops the newest record
whose `has_undo()` is true (skipping non-undoable records) and re-adds its
`replaced` records.  `formatting` is always empty inside the core
embedding, so every record is undoable and exactly the newest one is
popped; on an empty history there is nothing to undo and the translator is
left unchanged. -/
def undoCmdStep (tr : TranslatorS) : TranslatorS :=
  match tr.state.translations.getLast? with
  | none => tr
  | some t => trDo (trUndo tr [t]) t.replaced

/-- `Translator.translate_stroke`: detect a macro from the single-stroke
lookup; dispatch it (only the built-in `undo` is modelled — other macros
are external plugins), or run the greedy lookup and apply
`_undo(*t.replaced); _do(t)`. -/
def translateStroke (mk : List String → String) (sfxKeys pfxKeys : List String)
    (tr : TranslatorS) (stroke : Stroke) : TranslatorS :=
  match mappingToCmd (collLookup tr.dict [stroke.rtfcre]) stroke with
  | some cmd => if cmd.name = "undo" then undoCmdStep tr else tr
  | none =>
      let t := findTranslation tr.dict mk tr.state.translations stroke true
        sfxKeys pfxKeys
      trDo (trUndo tr t.replaced) [t]

/-- `Translator.translate`: process one stroke, then flush. -/
def translateFull (mk : List String → String) (sfxKeys pfxKeys : List String)
    (tr : TranslatorS) (stroke : Stroke) :
    TranslatorS
    × List (List Translation × List Translation × Option (List Translation)) :=
  trFlush (translateStroke mk sfxKeys pfxKeys tr stroke) none

/-- An empty dictionary collection. -/
def emptyColl : DColl := ⟨[], [], 0⟩

/-- A translator over the empty collection in its initial state. -/
def trEmpty : TranslatorS := ⟨emptyColl, 0, ⟨[], none⟩, [], 0⟩

/-- An unmapped correction stroke. -/
def sCorr : Stroke := ⟨"*", ["*"], true⟩

/-- C8 counterexample: an unmapped correction stroke dispatches the `undo`
macro; on an empty history nothing is undone or done, so `flush` emits no
notification at all — the listeners are not called exactly once. -/
theorem translate_once_counterexample :
    ¬ (translateFull mkNull [] [] trEmpty sCorr).2.length = 1 := by
  decide

/-- The replaced list of a greedy-lookup result is always a trailing
segment of the history it was computed from. -/
theorem findTranslation_replaced_suffix (c : DColl) (mk : List String → String)
    (translations : List Translation) (stroke : Stroke) (normal : Bool)
    (s p : List String) :
    ∃ i, (findTranslation c mk translations stroke normal s p).replaced
      = translations.drop i := by
  cases hfs : (ftModes normal s
      (testAndRemoveEach mk stroke.stenoKeys s) p).findSome?
      (fun mode =>
        firstHit
          (mappingAt c mk (ftSelected c translations) stroke
            (ftCount c translations)
            (testAndRemoveEach mk stroke.stenoKeys s) p mode)
          0 (ftCount c translations + 1)) with
  | some im =>
    have hreq : findTranslation c mk translations stroke normal s p
        = Translation.mk
            ((((ftSelected c translations).drop im.1).map Translation.strokes).flatten
              ++ [stroke])
            (some im.2)
            ((ftSelected c translations).drop im.1) := by
      unfold findTranslation
      rw [hfs]
    rw [hreq, replaced_mk]
    refine ⟨translations.length - ftCount c translations + im.1, ?_⟩
    unfold ftSelected
    rw [List.drop_drop]
  | none =>
    have hreq : findTranslation c mk translations stroke normal s p
        = Translation.mk [stroke] none [] := by
      unfold findTranslation
      rw [hfs]
    rw [hreq, replaced_mk]
    exact ⟨translations.length, (List.drop_length _).symm⟩

/-- C8 amended: for every stroke whose processing does not dispatch a macro
(the single-stroke lookup yields no macro descriptor), starting from an
empty translator state, `translate(stroke)` notifies each listener exactly
once, with an empty undo list, a do list of length exactly 1, and no
context. -/
theorem translate_once_spec (dict : DColl) (mk : List String → String)
    (sfxKeys pfxKeys : List String) (undoLen : Nat) (stroke : Stroke)
    (hmac : mappingToCmd (collLookup dict [stroke.rtfcre]) stroke = none) :
    ∃ t, (translateFull mk sfxKeys pfxKeys
        ⟨dict, undoLen, ⟨[], none⟩, [], 0⟩ stroke).2 = [([], [t], none)] := by
  obtain ⟨i, hrep⟩ :=
    findTranslation_replaced_suffix dict mk [] stroke true sfxKeys pfxKeys
  have hrep0 : (findTranslation dict mk [] stroke true sfxKeys pfxKeys).replaced
      = [] := by
    rw [hrep]
    simp
  refine ⟨findTranslation dict mk [] stroke true sfxKeys pfxKeys, ?_⟩
  unfold translateFull translateStroke
  rw [hmac]
  dsimp only
  rw [hrep0]
  rfl

/-- Witness for C8's amended theorem: stroke `KAT` over the empty
collection triggers no macro and produces exactly one notification. -/
theorem translate_once_spec_witness :
    ∃ t, (translateFull mkNull [] []
        ⟨emptyColl, 0, ⟨[], none⟩, [], 0⟩ sKAT).2 = [([], [t], none)] :=
  translate_once_spec emptyColl mkNull [] [] 0 sKAT (by rfl)

end Plover
